import Mathlib

/-!
Shallow embedding of the two batch scripts of the `US-Inaugural-Addresses`
repository (`scrape_inaugural_addresses.py` and `analyze_raw_words.py`),
together with theorems settling the frozen claims about them.

Python strings are modelled as Lean `String` (a wrapper around `List Char`);
Python's Unicode-aware whitespace/digit notions are modelled by explicit
character-code predicates.  Fallible Python code (attribute access on `None`)
is modelled with explicit outcome constructors.
-/

namespace USInaugural

/-- Characters matched by Python's `str.isspace` / the regex class `\s`
(Unicode white space as Python implements it: `\t \n \v \f \r`,
file/group/record/unit separators `0x1c`–`0x1f`, space, NEL `0x85`,
NBSP `0xa0`, Ogham space, the `0x2000`–`0x200a` range, line/paragraph
separators, narrow NBSP, medium mathematical space, ideographic space). -/
def isPySpace (c : Char) : Bool :=
  decide ((9 ≤ c.toNat ∧ c.toNat ≤ 13) ∨ (28 ≤ c.toNat ∧ c.toNat ≤ 31) ∨
    c.toNat = 32 ∨ c.toNat = 133 ∨ c.toNat = 160 ∨ c.toNat = 5760 ∨
    (8192 ≤ c.toNat ∧ c.toNat ≤ 8202) ∨ c.toNat = 8232 ∨ c.toNat = 8233 ∨
    c.toNat = 8239 ∨ c.toNat = 8287 ∨ c.toNat = 12288)

/-- Characters matched by the regex class `[a-zA-Z0-9]`. -/
def isAlnumAscii (c : Char) : Bool :=
  decide ((65 ≤ c.toNat ∧ c.toNat ≤ 90) ∨ (97 ≤ c.toNat ∧ c.toNat ≤ 122) ∨
    (48 ≤ c.toNat ∧ c.toNat ≤ 57))

/-- Characters matched by the regex class `\d`.  (Python's `\d` also matches
non-ASCII Unicode decimal digits; only the ASCII digits are relevant to the
whitespace-split English-text tokens this program classifies.) -/
def isPyDigit (c : Char) : Bool :=
  decide (48 ≤ c.toNat ∧ c.toNat ≤ 57)

/-- The apostrophe character `0x27`. -/
def apostropheChar : Char := Char.ofNat 39

/-- Leading-whitespace strip on a character list (left half of Python's
`str.strip()`). -/
def lstrip (l : List Char) : List Char := l.dropWhile isPySpace

/-- Trailing-whitespace strip on a character list (right half of Python's
`str.strip()`). -/
def rstrip (l : List Char) : List Char := l.rdropWhile isPySpace

/-- Python's `str.strip()` with no arguments: removes leading and trailing
whitespace. -/
def pyStrip (s : String) : String := String.mk (rstrip (lstrip s.data))

/-- Auxiliary loop for Python's `str.split()` with no arguments: walks the
characters accumulating the current (reversed) run of non-whitespace
characters, emitting each maximal run. -/
def splitWsAux : List Char → List Char → List (List Char)
  | [], acc => if acc.isEmpty then [] else [acc.reverse]
  | c :: cs, acc =>
    if isPySpace c then
      if acc.isEmpty then splitWsAux cs [] else acc.reverse :: splitWsAux cs []
    else splitWsAux cs (c :: acc)

/-- Python's `str.split()` with no arguments: the maximal runs of
non-whitespace characters, in order; never produces an empty token. -/
def pySplitWs (s : String) : List String := (splitWsAux s.data []).map String.mk

/-- Python's `str.split(",")` on the underlying character list: splits at
every comma, keeping empty segments; always returns at least one segment. -/
def splitOnCommaChar : List Char → List (List Char)
  | [] => [[]]
  | c :: cs =>
    if c = ',' then [] :: splitOnCommaChar cs
    else
      match splitOnCommaChar cs with
      | [] => [[c]]
      | seg :: segs => (c :: seg) :: segs

/-- Python's `s.encode("ascii", "ignore").decode()`: drops every non-ASCII
character. -/
def asciiIgnore (s : String) : String := String.mk (s.data.filter (fun c => c.toNat < 128))

/-- Auxiliary loop for `re.sub(r"[^a-zA-Z0-9]+", "-", s)`: the flag records
whether the previous character was part of a non-alphanumeric run (in which
case a hyphen has already been emitted for the run). -/
def subNonAlnumAux : Bool → List Char → List Char
  | _, [] => []
  | inRun, c :: cs =>
    if isAlnumAscii c then c :: subNonAlnumAux false cs
    else if inRun then subNonAlnumAux true cs
    else '-' :: subNonAlnumAux true cs

/-- `re.sub(r"[^a-zA-Z0-9]+", "-", s)`: every maximal run of
non-alphanumeric characters is replaced by a single hyphen. -/
def subNonAlnum (l : List Char) : List Char := subNonAlnumAux false l

/-- The test for a hyphen character, as used by `str.strip("-")`. -/
def isHyphen (c : Char) : Bool := c == '-'

/-- Python's `str.strip("-")`: removes leading and trailing hyphens. -/
def stripHyphens (l : List Char) : List Char :=
  (l.dropWhile isHyphen).rdropWhile isHyphen

/-- Python's `str.lower()` per character.  At the point the scraper applies
it the string contains only ASCII alphanumerics and hyphens (the earlier
`encode("ascii","ignore")` and `re.sub` stages guarantee this), where
`str.lower()` is exactly ASCII lowercasing. -/
def lowerChar (c : Char) : Char :=
  if 65 ≤ c.toNat ∧ c.toNat ≤ 90 then Char.ofNat (c.toNat + 32) else c

/-- `_slugify` from `scrape_inaugural_addresses.py`.  The Unicode NFKD
normalization table of `unicodedata.normalize("NFKD", ·)` is standard-library
data, passed in as the parameter `nfkd`; the rest follows the source:
ASCII-encode with `ignore`, replace every non-alphanumeric run by a single
hyphen, strip leading/trailing hyphens, lowercase. -/
def _slugify (nfkd : String → String) (text : String) : String :=
  let slug := asciiIgnore (nfkd text)
  let slug := String.mk (stripHyphens (subNonAlnum slug.data))
  String.mk (slug.data.map lowerChar)

/-- Lines 105–106 of `scrape_inaugural_addresses.py`: given the text of the
date element, strip it; if the result is falsy (empty) the year is `None`,
otherwise the year is the stripped last comma-delimited segment. -/
def deriveYear (dateText : String) : Option String :=
  let year := pyStrip dateText
  if year = "" then none
  else some (pyStrip (String.mk ((splitOnCommaChar year.data).getLastD [])))

/-- A detail page as seen through the three structural selectors of
`scrape_inaugural`: each field is the `.text` of the first element matched by
the corresponding CSS selector, or `none` when the selector matches nothing
(`select_one` returns `None`). -/
structure DetailPage where
  presidentTag : Option String
  yearTag : Option String
  speechTag : Option String

/-- Outcome of one `scrape_inaugural` task: an exception escaped the task
(`raised`), a file was written with the given path and content (`written`),
or the function finished without writing (`skipped`). -/
inductive ScrapeOutcome
  | raised
  | written (path : String) (content : String)
  | skipped
deriving DecidableEq, Repr

/-- Python truthiness of a string: nonempty. -/
def pyTruthyStr (s : String) : Bool := s != ""

/-- Python truthiness of an optional string: not `None` and nonempty. -/
def pyTruthyOptStr : Option String → Bool
  | none => false
  | some s => s != ""

/-- `scrape_inaugural` from `scrape_inaugural_addresses.py` (the pure
parse-and-persist decision logic; network fetch and logging elided).  Each
`select_one` that matches nothing returns `None`, and the immediately
following `.text` access raises `AttributeError`, modelled by
`ScrapeOutcome.raised`.  A file is written only when name, year and speech
are all truthy. -/
def scrape_inaugural (nfkd : String → String) (page : DetailPage) : ScrapeOutcome :=
  match page.presidentTag with
  | none => ScrapeOutcome.raised
  | some president_name_tag =>
    let president_name := pyStrip president_name_tag
    match page.yearTag with
    | none => ScrapeOutcome.raised
    | some year_tag =>
      let year := deriveYear year_tag
      match page.speechTag with
      | none => ScrapeOutcome.raised
      | some speech_tag =>
        let speech := pyStrip speech_tag
        if pyTruthyStr president_name && pyTruthyOptStr year && pyTruthyStr speech then
          let stem := _slugify nfkd (year.getD "" ++ "-" ++ president_name)
          ScrapeOutcome.written ("data/raw/inaugural-addresses/" ++ stem ++ ".txt") speech
        else ScrapeOutcome.skipped

/-- `scrape_inaugural_urls` from `scrape_inaugural_addresses.py` (the loop
over the anchors matched by the listing selector; network fetch elided).
Each anchor contributes its `href` attribute (`none` when absent); the code
maps a falsy (empty) href to `None` via `or None`, skips falsy hrefs, and
yields `href.strip()` for the rest. -/
def scrape_inaugural_urls (urls_tags : List (Option String)) : List String :=
  urls_tags.filterMap (fun url_tag =>
    let url_href := url_tag.bind (fun h => if h = "" then none else some h)
    url_href.map pyStrip)

/-- One row of the metadata table built by `analyze_raw_words.py`
(the tuple returned by `process_inaugural_word`, in source order). -/
structure WordMeta where
  word : String
  frequency : Nat
  has_special_chars : Bool
  has_nums : Bool
  has_contraction : Bool
deriving DecidableEq, Repr

/-- `process_inaugural_word` from `analyze_raw_words.py`: classifies one
`(word, frequency)` pair.  `re.search(r"[^a-zA-Z0-9\s]", word)` is truthy iff
some character is neither alphanumeric nor whitespace; `"'" in word` tests
for an apostrophe; `re.search(r"\d", word)` is truthy iff some character is a
decimal digit. -/
def process_inaugural_word (word_freq : String × Nat) : WordMeta :=
  let (word, frequency) := word_freq
  let has_special_chars := word.data.any (fun c => !isAlnumAscii c && !isPySpace c)
  let has_contraction := word.data.contains apostropheChar
  let has_nums := word.data.any isPyDigit
  ⟨word, frequency, has_special_chars, has_nums, has_contraction⟩

/-- `process_inaugural_file` from `analyze_raw_words.py`: the file is
modelled as its list of lines; the loop strips each line, splits it on
whitespace and appends the tokens to the accumulated word list. -/
def process_inaugural_file (text_lines : List String) : List String :=
  text_lines.foldl (fun words text_line => words ++ pySplitWs (pyStrip text_line)) []

/-- One counting step of a frequency distribution: increment the entry for
`w` if present, else append `(w, 1)` (insertion order of first occurrences is
preserved, as in `collections.Counter`). -/
def bumpToken : List (String × Nat) → String → List (String × Nat)
  | [], w => [(w, 1)]
  | (x, n) :: rest, w =>
    if x = w then (x, n + 1) :: rest else (x, n) :: bumpToken rest w

/-- Modelled from the spec: `nltk.probability.FreqDist` (an imported library
class, a `collections.Counter` subclass, not part of the repository sources)
— the exact multiset tally of the token sequence, as an insertion-ordered
association list from distinct token to occurrence count. -/
def FreqDist (tokens : List String) : List (String × Nat) :=
  tokens.foldl bumpToken []

/-- Lookup in an association list of token counts (0 when absent). -/
def lookupCount : List (String × Nat) → String → Nat
  | [], _ => 0
  | (x, n) :: rest, w => if x = w then n else lookupCount rest w

/-- The classified metadata rows of `analyze_raw_words.py` lines 107–110:
one `process_inaugural_word` application per item of the frequency
distribution, in the distribution's enumeration order (the parallel
dispatcher returns results in the order of its input generator). -/
def metadataRows (tokens : List String) : List WordMeta :=
  (FreqDist tokens).map process_inaugural_word

/-- Stable descending-by-frequency insertion of a row: the new row goes
after every existing row of frequency ≥ its own and before the first row of
strictly smaller frequency. -/
def insertRow (r : WordMeta) : List WordMeta → List WordMeta
  | [] => [r]
  | x :: xs => if x.frequency < r.frequency then r :: x :: xs else x :: insertRow r xs

/-- Modelled from the spec: `DataFrame.sort_values(by="frequency",
ascending=False)` (pandas library code, not part of the repository sources)
as the spec describes it — a stable sort by frequency descending, ties
keeping the input enumeration order.  Implemented as a left-fold insertion
sort, which is stable. -/
def sortRows (rows : List WordMeta) : List WordMeta :=
  rows.foldl (fun acc r => insertRow r acc) []

/-- Python/pandas rendering of a boolean cell. -/
def pyBoolStr (b : Bool) : String := if b then "True" else "False"

/-- One comma-delimited CSV row of the metadata table. -/
def rowToCsv (r : WordMeta) : String :=
  r.word ++ "," ++ toString r.frequency ++ "," ++ pyBoolStr r.has_special_chars ++ "," ++
    pyBoolStr r.has_nums ++ "," ++ pyBoolStr r.has_contraction

/-- The CSV header line for `METADATA_HEADERS`. -/
def metadataHeaderLine : String := "word,frequency,has_special_chars,has_nums,has_contraction"

/-- Modelled from the spec: `metadata_df.to_csv(path, index=False)` after
the descending sort — the serialized report, one header line followed by one
comma-delimited line per row in sorted order. -/
def metadata_csv (rows : List WordMeta) : List String :=
  metadataHeaderLine :: (sortRows rows).map rowToCsv

/-- The token `don't`, built explicitly around the apostrophe character. -/
def dontWord : String := String.mk ('d' :: 'o' :: 'n' :: apostropheChar :: 't' :: [])

/-- The characters a finished slug may contain: lowercase ASCII letters,
ASCII digits and the hyphen. -/
def isSlugChar (c : Char) : Bool :=
  decide ((97 ≤ c.toNat ∧ c.toNat ≤ 122) ∨ (48 ≤ c.toNat ∧ c.toNat ≤ 57) ∨ c = '-')

/-- Left-folding token-list concatenation is flat-mapping (the accumulator
of `process_inaugural_file` factors out). -/
theorem foldl_append_eq_flatMap (f : String → List String) :
    ∀ (lines : List String) (acc : List String),
      lines.foldl (fun ws l => ws ++ f l) acc = acc ++ lines.flatMap f
  | [], acc => by simp
  | l :: ls, acc => by
    simp [List.foldl_cons, foldl_append_eq_flatMap f ls (acc ++ f l), List.flatMap_cons,
      List.append_assoc]

/-- Claim C3: `process_inaugural_word` computes three independent boolean
flags: `has_special_chars` is true iff the token has a character outside
`[A-Za-z0-9]` and outside whitespace, `has_nums` is true iff it has a decimal
digit, `has_contraction` is true iff it has an apostrophe; on `don't` the
flags are `(true, false, true)`, on `hello` `has_special_chars` is false, and
on `1600` `has_nums` is true while `has_special_chars` is false. -/
theorem C3_token_classifier_flags (w : String) (f : Nat) :
    ((process_inaugural_word (w, f)).has_special_chars = true ↔
      ∃ c ∈ w.data, isAlnumAscii c = false ∧ isPySpace c = false) ∧
    ((process_inaugural_word (w, f)).has_nums = true ↔ ∃ c ∈ w.data, isPyDigit c = true) ∧
    ((process_inaugural_word (w, f)).has_contraction = true ↔ apostropheChar ∈ w.data) ∧
    process_inaugural_word (dontWord, 1) = ⟨dontWord, 1, true, false, true⟩ ∧
    (process_inaugural_word ("hello", 2)).has_special_chars = false ∧
    (process_inaugural_word ("1600", 3)).has_nums = true ∧
    (process_inaugural_word ("1600", 3)).has_special_chars = false := by
  refine ⟨?_, ?_, ?_, by decide, by decide, by decide, by decide⟩
  · simp [process_inaugural_word, List.any_eq_true]
  · simp [process_inaugural_word, List.any_eq_true]
  · simp [process_inaugural_word]

/-- Claim C10: whenever `process_inaugural_word` sets `has_contraction`
(the token contains an apostrophe), it also sets `has_special_chars`: the
apostrophe matches the special-character class `[^a-zA-Z0-9\s]`. -/
theorem C10_contraction_implies_special (w : String) (f : Nat)
    (h : (process_inaugural_word (w, f)).has_contraction = true) :
    (process_inaugural_word (w, f)).has_special_chars = true := by
  have hm : apostropheChar ∈ w.data := by
    simpa [process_inaugural_word] using h
  simp only [process_inaugural_word, List.any_eq_true]
  exact ⟨apostropheChar, hm, by decide⟩

/-- Witness for C10 at the concrete token `don't`. -/
theorem C10_witness :
    (process_inaugural_word (dontWord, 1)).has_special_chars = true :=
  C10_contraction_implies_special dontWord 1 (by decide)

/-- Claim C4: `process_inaugural_file` returns the concatenation, in file
order, of each line's whitespace-split tokens after stripping the line; on
the two lines `Four score` / `and seven years` it yields the five tokens in
order. -/
theorem C4_tokenizer (text_lines : List String) :
    process_inaugural_file text_lines = text_lines.flatMap (fun l => pySplitWs (pyStrip l)) ∧
    process_inaugural_file ["Four score", "and seven years"] =
      ["Four", "score", "and", "seven", "years"] := by
  constructor
  · simpa [process_inaugural_file] using
      foldl_append_eq_flatMap (fun l => pySplitWs (pyStrip l)) text_lines []
  · decide

/-- Counting one more `w` increments exactly the looked-up count of `w`. -/
theorem lookupCount_bumpToken_self :
    ∀ (acc : List (String × Nat)) (w : String),
      lookupCount (bumpToken acc w) w = lookupCount acc w + 1
  | [], w => by simp [bumpToken, lookupCount]
  | (x, n) :: rest, w => by
    by_cases hxw : x = w
    · simp [bumpToken, lookupCount, hxw]
    · simp [bumpToken, lookupCount, hxw, lookupCount_bumpToken_self rest w]

/-- Counting one more `w` leaves every other looked-up count unchanged. -/
theorem lookupCount_bumpToken_other :
    ∀ (acc : List (String × Nat)) (w v : String), v ≠ w →
      lookupCount (bumpToken acc w) v = lookupCount acc v
  | [], w, v, hvw => by simp [bumpToken, lookupCount, Ne.symm hvw]
  | (x, n) :: rest, w, v, hvw => by
    have hrec := lookupCount_bumpToken_other rest w v hvw
    by_cases hxw : x = w
    · subst hxw
      have hxv : x ≠ v := fun h => hvw h.symm
      simp [bumpToken, lookupCount, hxv]
    · by_cases hxv : x = v
      · subst hxv
        simp [bumpToken, lookupCount, hxw]
      · simp [bumpToken, lookupCount, hxw, hxv, hrec]

/-- Folding the counter over a token list adds each token's multiplicity to
the accumulator's looked-up count. -/
theorem lookupCount_foldl_bumpToken :
    ∀ (ts : List String) (acc : List (String × Nat)) (w : String),
      lookupCount (ts.foldl bumpToken acc) w = lookupCount acc w + ts.count w
  | [], acc, w => by simp
  | t :: ts, acc, w => by
    rw [List.foldl_cons, lookupCount_foldl_bumpToken ts (bumpToken acc t) w]
    by_cases htw : t = w
    · subst htw
      rw [lookupCount_bumpToken_self]
      simp [List.count_cons]
      omega
    · rw [lookupCount_bumpToken_other acc t w (fun h => htw h.symm)]
      simp [List.count_cons, htw]

/-- Counting one more token increases the total of all counts by one. -/
theorem sumCounts_bumpToken :
    ∀ (acc : List (String × Nat)) (w : String),
      ((bumpToken acc w).map Prod.snd).sum = (acc.map Prod.snd).sum + 1
  | [], w => by simp [bumpToken]
  | (x, n) :: rest, w => by
    by_cases hxw : x = w
    · simp [bumpToken, hxw]
      omega
    · simp [bumpToken, hxw, sumCounts_bumpToken rest w]
      omega

/-- Folding the counter over a token list adds the list's length to the
total of all counts. -/
theorem sumCounts_foldl_bumpToken :
    ∀ (ts : List String) (acc : List (String × Nat)),
      ((ts.foldl bumpToken acc).map Prod.snd).sum = (acc.map Prod.snd).sum + ts.length
  | [], acc => by simp
  | t :: ts, acc => by
    rw [List.foldl_cons, sumCounts_foldl_bumpToken ts (bumpToken acc t),
      sumCounts_bumpToken acc t]
    simp
    omega

/-- Claim C5: the frequency aggregation is an exact multiset tally — every
token maps to its exact occurrence count and the counts sum to the number of
tokens; on `["a","b","a","c","a"]` it gives `a↦3, b↦1, c↦1`, summing to 5. -/
theorem C5_freq_dist_exact_tally (tokens : List String) :
    (∀ w, lookupCount (FreqDist tokens) w = tokens.count w) ∧
    ((FreqDist tokens).map Prod.snd).sum = tokens.length ∧
    FreqDist ["a", "b", "a", "c", "a"] = [("a", 3), ("b", 1), ("c", 1)] ∧
    ((FreqDist ["a", "b", "a", "c", "a"]).map Prod.snd).sum = 5 := by
  refine ⟨?_, ?_, by decide, by decide⟩
  · intro w
    simpa [FreqDist, lookupCount] using lookupCount_foldl_bumpToken tokens [] w
  · simpa [FreqDist] using sumCounts_foldl_bumpToken tokens []

/-- Counterexample to claim C8 as stated: an anchor whose `href` is a single
space is truthy before stripping, so it is not skipped and yields the empty
string after `strip()` — an empty string does appear in the output. -/
theorem C8_counterexample :
    scrape_inaugural_urls [some " "] = [""] ∧ "" ∈ scrape_inaugural_urls [some " "] := by
  decide

/-- Claim C8 (amended): `scrape_inaugural_urls` yields the trimmed hrefs of
the matched anchors in order, skipping every anchor whose href is absent or
is the empty string before trimming; a whitespace-only href is not skipped
and trims to the empty string, so empty strings can appear in the output. -/
theorem C8_listing_urls_trimmed (urls_tags : List (Option String)) :
    scrape_inaugural_urls urls_tags =
      ((urls_tags.filterMap id).filter (fun h => h != "")).map pyStrip := by
  induction urls_tags with
  | nil => rfl
  | cons t ts ih =>
    cases t with
    | none =>
      have h1 : scrape_inaugural_urls (none :: ts) = scrape_inaugural_urls ts := by
        simp [scrape_inaugural_urls, List.filterMap_cons]
      rw [h1, ih]
      simp [List.filterMap_cons]
    | some h =>
      by_cases hh : h = ""
      · subst hh
        have h1 : scrape_inaugural_urls (some "" :: ts) = scrape_inaugural_urls ts := by
          simp [scrape_inaugural_urls, List.filterMap_cons]
        rw [h1, ih]
        simp [List.filterMap_cons]
      · have h1 : scrape_inaugural_urls (some h :: ts) = pyStrip h :: scrape_inaugural_urls ts := by
          simp [scrape_inaugural_urls, List.filterMap_cons, hh]
        rw [h1, ih]
        simp [List.filterMap_cons, List.filter_cons, hh]

/-- Counterexample to claim C1 as stated: on a detail page whose body
selector matches nothing, `scrape_inaugural` is not a silent drop — the
`.text` access on the `None` selector result raises, and the exception
escapes the task. -/
theorem C1_counterexample :
    scrape_inaugural id ⟨some "Abraham Lincoln", some "March 4, 1861", none⟩ =
      ScrapeOutcome.raised := rfl

/-- Claim C1 (amended): if any of the three structural selectors fails to
match, `scrape_inaugural` writes no file, but an `AttributeError` escapes
the task (accessing `.text` on the `None` returned by `select_one`) instead
of the record being silently dropped. -/
theorem C1_missing_selector_raises (nfkd : String → String) (page : DetailPage)
    (h : page.presidentTag = none ∨ page.yearTag = none ∨ page.speechTag = none) :
    scrape_inaugural nfkd page = ScrapeOutcome.raised ∧
    ∀ path content, scrape_inaugural nfkd page ≠ ScrapeOutcome.written path content := by
  have hr : scrape_inaugural nfkd page = ScrapeOutcome.raised := by
    obtain ⟨pt, yt, st⟩ := page
    rcases pt with _ | pt
    · rfl
    rcases yt with _ | yt
    · rfl
    rcases st with _ | st
    · rfl
    · simp at h
  exact ⟨hr, fun path content hc => by rw [hr] at hc; exact ScrapeOutcome.noConfusion hc⟩

/-- Witness for the amended C1 at a concrete page missing the body
container. -/
theorem C1_witness :
    ((⟨some "A", some "March 4, 1861", none⟩ : DetailPage).presidentTag = none ∨
      (⟨some "A", some "March 4, 1861", none⟩ : DetailPage).yearTag = none ∨
      (⟨some "A", some "March 4, 1861", none⟩ : DetailPage).speechTag = none) ∧
    scrape_inaugural id ⟨some "A", some "March 4, 1861", none⟩ = ScrapeOutcome.raised :=
  ⟨Or.inr (Or.inr rfl),
    (C1_missing_selector_raises id ⟨some "A", some "March 4, 1861", none⟩
      (Or.inr (Or.inr rfl))).1⟩

/-- The head of a nonempty `dropWhile` result fails the predicate. -/
theorem dropWhile_head_false {α} {p : α → Bool} :
    ∀ {l : List α} {c : α} {u : List α}, l.dropWhile p = c :: u → p c = false
  | [], c, u, h => by simp at h
  | x :: xs, c, u, h => by
    rw [List.dropWhile_cons] at h
    by_cases hx : p x
    · rw [if_pos hx] at h
      exact dropWhile_head_false h
    · rw [if_neg hx] at h
      injection h with h1 h2
      subst h1
      simpa using hx

/-- Dropping a prefix stops at any element failing the predicate, so the
part after such an element survives `dropWhile` unchanged. -/
theorem dropWhile_append_keep {α} {p : α → Bool} {c : α} (hc : p c = false) :
    ∀ (xs ys : List α), (xs ++ c :: ys).dropWhile p = xs.dropWhile p ++ c :: ys
  | [], ys => by simp [List.dropWhile_cons, hc]
  | x :: xs, ys => by
    by_cases hx : p x
    · simp [List.dropWhile_cons, hx, dropWhile_append_keep hc xs ys]
    · simp [List.dropWhile_cons, hx]

/-- Dually, the part before an element failing the predicate survives
`rdropWhile` unchanged. -/
theorem rdropWhile_append_keep {α} {p : α → Bool} {c : α} (hc : p c = false)
    (u v : List α) :
    (u ++ c :: v).rdropWhile p = u ++ c :: v.rdropWhile p := by
  have h1 : (u ++ c :: v).reverse = v.reverse ++ c :: u.reverse := by
    simp [List.reverse_append]
  unfold List.rdropWhile
  rw [h1, dropWhile_append_keep hc]
  simp [List.reverse_append]

/-- `rdropWhile` only touches the right operand of an append when the right
operand does not strip away completely. -/
theorem rdropWhile_append_left {α} {p : α → Bool} {v : List α}
    (h : v.rdropWhile p ≠ []) (u : List α) :
    (u ++ v).rdropWhile p = u ++ v.rdropWhile p := by
  have h' : v.reverse.dropWhile p ≠ [] := by
    intro e
    apply h
    unfold List.rdropWhile
    rw [e, List.reverse_nil]
  unfold List.rdropWhile
  rw [List.reverse_append, List.dropWhile_append,
    if_neg (by simpa [List.isEmpty_iff] using h'), List.reverse_append, List.reverse_reverse]

/-- A nonempty `rdropWhile` of a cons keeps the original head. -/
theorem rdropWhile_cons_head {α} {p : α → Bool} {c : α} {u : List α}
    (h : (c :: u).rdropWhile p ≠ []) : ∃ w, (c :: u).rdropWhile p = c :: w := by
  obtain ⟨t, ht⟩ := List.rdropWhile_prefix p (c :: u)
  cases hr : (c :: u).rdropWhile p with
  | nil => exact absurd hr h
  | cons d w =>
    rw [hr, List.cons_append] at ht
    injection ht with h1 h2
    subst h1
    exact ⟨w, rfl⟩

/-- Left and right whitespace stripping commute. -/
theorem dropWhile_rdropWhile_comm {α} (p : α → Bool) (l : List α) :
    (l.rdropWhile p).dropWhile p = (l.dropWhile p).rdropWhile p := by
  rcases hu : l.dropWhile p with _ | ⟨c, u⟩
  · have hall : ∀ x ∈ l, p x := List.dropWhile_eq_nil_iff.mp hu
    have h1 : l.rdropWhile p = [] := List.rdropWhile_eq_nil_iff.mpr hall
    rw [h1]
    simp [List.rdropWhile]
  · have hc : p c = false := dropWhile_head_false hu
    have hsplit : l.takeWhile p ++ (c :: u) = l := by
      conv_rhs => rw [← List.takeWhile_append_dropWhile (p := p) (l := l)]
      rw [hu]
    have hne : (c :: u).rdropWhile p ≠ [] := by
      rw [Ne, List.rdropWhile_eq_nil_iff]
      push_neg
      exact ⟨c, List.mem_cons_self c u, by simp [hc]⟩
    obtain ⟨w, hw⟩ := rdropWhile_cons_head hne
    have h2 : l.rdropWhile p = l.takeWhile p ++ c :: w := by
      conv_lhs => rw [← hsplit]
      rw [rdropWhile_append_left hne, hw]
    rw [h2, hw, dropWhile_append_keep hc]
    have h3 : (l.takeWhile p).dropWhile p = [] :=
      List.dropWhile_eq_nil_iff.mpr (fun x hx => List.mem_takeWhile_imp hx)
    rw [h3, List.nil_append]

/-- Members of `rdropWhile` are members of the original list. -/
theorem mem_rdropWhile {α} {p : α → Bool} {c : α} {l : List α}
    (h : c ∈ l.rdropWhile p) : c ∈ l :=
  List.IsPrefix.subset ( List.rdropWhile_prefix p l) h

/-- Splitting on commas always produces at least one segment. -/
theorem splitOnCommaChar_ne_nil : ∀ l : List Char, splitOnCommaChar l ≠ []
  | [] => by simp [splitOnCommaChar]
  | c :: cs => by
    by_cases hc : c = ','
    · simp [splitOnCommaChar, hc]
    · cases h : splitOnCommaChar cs with
      | nil => simp [splitOnCommaChar, hc, h]
      | cons seg segs => simp [splitOnCommaChar, hc, h]

/-- A comma-free list splits into exactly itself. -/
theorem splitOnCommaChar_no_comma : ∀ l : List Char, ',' ∉ l → splitOnCommaChar l = [l]
  | [], _ => rfl
  | c :: cs, h => by
    have hc : ¬ c = ',' := by
      intro e
      exact h (by simp [e])
    have hrec := splitOnCommaChar_no_comma cs (fun hm => h (List.mem_cons_of_mem c hm))
    simp [splitOnCommaChar, hc, hrec]

/-- A list containing an explicit comma splits into at least two
segments. -/
theorem splitOnCommaChar_append_two :
    ∀ (u v : List Char), 2 ≤ (splitOnCommaChar (u ++ ',' :: v)).length
  | [], v => by
    have h1 : splitOnCommaChar ([] ++ ',' :: v) = [] :: splitOnCommaChar v := by
      simp [splitOnCommaChar]
    rw [h1, List.length_cons]
    have h2 : 0 < (splitOnCommaChar v).length :=
      List.length_pos.mpr (splitOnCommaChar_ne_nil v)
    omega
  | c :: u, v => by
    by_cases hc : c = ','
    · subst hc
      have h1 : splitOnCommaChar (',' :: (u ++ ',' :: v)) =
          [] :: splitOnCommaChar (u ++ ',' :: v) := by
        simp [splitOnCommaChar]
      rw [List.cons_append, h1, List.length_cons]
      have h2 : 0 < (splitOnCommaChar (u ++ ',' :: v)).length :=
        List.length_pos.mpr (splitOnCommaChar_ne_nil _)
      omega
    · cases h : splitOnCommaChar (u ++ ',' :: v) with
      | nil => exact absurd h (splitOnCommaChar_ne_nil _)
      | cons seg segs =>
        have h1 : splitOnCommaChar ((c :: u) ++ ',' :: v) = (c :: seg) :: segs := by
          simp [splitOnCommaChar, hc, h]
        have h2 := splitOnCommaChar_append_two u v
        rw [h, List.length_cons] at h2
        rw [h1, List.length_cons]
        omega

/-- `getLastD` of a nonempty list ignores the default. -/
theorem getLastD_of_ne_nil {α} {l : List α} (h : l ≠ []) (d₁ d₂ : α) :
    l.getLastD d₁ = l.getLastD d₂ := by
  rw [List.getLastD_eq_getLast?, List.getLastD_eq_getLast?]
  cases hl : l.getLast? with
  | none => exact absurd (List.getLast?_eq_none_iff.mp hl) h
  | some x => rfl

/-- The last comma-delimited segment ignores everything before the last
explicit comma boundary shown. -/
theorem getLastD_splitOnCommaChar_append :
    ∀ (u v : List Char),
      (splitOnCommaChar (u ++ ',' :: v)).getLastD [] = (splitOnCommaChar v).getLastD []
  | [], v => by
    have h1 : splitOnCommaChar ([] ++ ',' :: v) = [] :: splitOnCommaChar v := by
      simp [splitOnCommaChar]
    rw [h1, List.getLastD_cons]
  | c :: u, v => by
    by_cases hc : c = ','
    · subst hc
      have h1 : splitOnCommaChar (',' :: (u ++ ',' :: v)) =
          [] :: splitOnCommaChar (u ++ ',' :: v) := by
        simp [splitOnCommaChar]
      rw [List.cons_append, h1, List.getLastD_cons]
      exact getLastD_splitOnCommaChar_append u v
    · cases h : splitOnCommaChar (u ++ ',' :: v) with
      | nil => exact absurd h (splitOnCommaChar_ne_nil _)
      | cons seg segs =>
        have h1 : splitOnCommaChar ((c :: u) ++ ',' :: v) = (c :: seg) :: segs := by
          simp [splitOnCommaChar, hc, h]
        have hsegs : segs ≠ [] := by
          have h2 := splitOnCommaChar_append_two u v
          rw [h, List.length_cons] at h2
          intro e
          rw [e] at h2
          simp at h2
        rw [h1]
        calc ((c :: seg) :: segs).getLastD [] = segs.getLastD (c :: seg) :=
              List.getLastD_cons ..
          _ = segs.getLastD seg := getLastD_of_ne_nil hsegs _ _
          _ = (seg :: segs).getLastD [] := (List.getLastD_cons ..).symm
          _ = (splitOnCommaChar (u ++ ',' :: v)).getLastD [] := by rw [h]
          _ = (splitOnCommaChar v).getLastD [] := getLastD_splitOnCommaChar_append u v

/-- Stripping an already right-stripped string equals stripping the
original. -/
theorem pyStrip_mk_rstrip (y : String) :
    pyStrip (String.mk (rstrip y.data)) = pyStrip y := by
  unfold pyStrip
  show String.mk (rstrip (lstrip (rstrip y.data))) = String.mk (rstrip (lstrip y.data))
  unfold lstrip rstrip
  rw [dropWhile_rdropWhile_comm, List.rdropWhile_idempotent]

/-- `deriveYear`, written out: `None` for a blank date text, otherwise the
stripped last comma-delimited segment of the stripped date text. -/
theorem deriveYear_eq (s : String) :
    deriveYear s = if pyStrip s = "" then none
      else some (pyStrip (String.mk ((splitOnCommaChar (pyStrip s).data).getLastD []))) := rfl

/-- On any date text of the shape `a ++ "," ++ y` with `y` comma-free, the
derived year is exactly the stripped tail `y`. -/
theorem deriveYear_comma_suffix (a y : String) (hy : ',' ∉ y.data) :
    deriveYear (a ++ "," ++ y) = some (pyStrip y) := by
  have hcomma : isPySpace ',' = false := by decide
  have hdata : (a ++ "," ++ y).data = a.data ++ ',' :: y.data := by
    rw [String.data_append, String.data_append]
    show (a.data ++ [',']) ++ y.data = a.data ++ ',' :: y.data
    rw [List.append_assoc]
    rfl
  have hstrip : pyStrip (a ++ "," ++ y) =
      String.mk (lstrip a.data ++ ',' :: rstrip y.data) := by
    unfold pyStrip
    rw [hdata]
    unfold lstrip rstrip
    rw [dropWhile_append_keep hcomma, rdropWhile_append_keep hcomma]
  have hne : String.mk (lstrip a.data ++ ',' :: rstrip y.data) ≠ "" := by
    intro e
    have e2 : (lstrip a.data ++ ',' :: rstrip y.data) = ([] : List Char) :=
      congrArg String.data e
    simp at e2
  have hv : ',' ∉ rstrip y.data := fun hm => hy (mem_rdropWhile hm)
  have hlast : (splitOnCommaChar (lstrip a.data ++ ',' :: rstrip y.data)).getLastD [] =
      rstrip y.data := by
    rw [getLastD_splitOnCommaChar_append, splitOnCommaChar_no_comma _ hv]
    rfl
  rw [deriveYear_eq, hstrip, if_neg hne]
  show some (pyStrip (String.mk
    ((splitOnCommaChar (lstrip a.data ++ ',' :: rstrip y.data)).getLastD []))) = _
  rw [hlast, pyStrip_mk_rstrip]

/-- Claim C7: the year is derived by splitting the date text on commas and
taking the trimmed last segment; a blank date text gives a null year; a date
text not ending in a `, YYYY` segment silently yields a wrong (or null) year
rather than raising an error. -/
theorem C7_year_heuristic (d a y : String) (hy : ',' ∉ y.data) :
    deriveYear d = (if pyStrip d = "" then none
      else some (pyStrip (String.mk ((splitOnCommaChar (pyStrip d).data).getLastD [])))) ∧
    deriveYear (a ++ "," ++ y) = some (pyStrip y) ∧
    deriveYear "March 4, 1861" = some "1861" ∧
    deriveYear "March 4 1861" = some "March 4 1861" ∧
    deriveYear "   " = none :=
  ⟨deriveYear_eq d, deriveYear_comma_suffix a y hy, by decide, by decide, by decide⟩

/-- Witness for C7 at the concrete date text `March 4, 1861`. -/
theorem C7_witness :
    (',' ∉ (" 1861" : String).data) ∧
    deriveYear ("March 4" ++ "," ++ " 1861") = some (pyStrip " 1861") :=
  ⟨by decide, (C7_year_heuristic "" "March 4" " 1861" (by decide)).2.1⟩

/-- ASCII lowercasing of an uppercase letter adds 32 to its code. -/
theorem lowerChar_toNat_upper {c : Char} (h1 : 65 ≤ c.toNat) (h2 : c.toNat ≤ 90) :
    (lowerChar c).toNat = c.toNat + 32 := by
  unfold lowerChar
  rw [if_pos ⟨h1, h2⟩]
  obtain ⟨n, hn⟩ : ∃ n, c.toNat = n := ⟨c.toNat, rfl⟩
  rw [hn] at h1 h2 ⊢
  interval_cases n <;> decide

/-- ASCII lowercasing fixes every character outside the uppercase range. -/
theorem lowerChar_id {c : Char} (h : ¬(65 ≤ c.toNat ∧ c.toNat ≤ 90)) : lowerChar c = c := by
  unfold lowerChar
  rw [if_neg h]

/-- Only the hyphen lowercases to a hyphen. -/
theorem lowerChar_hyphen {c : Char} (h : lowerChar c = '-') : c = '-' := by
  by_cases hc : 65 ≤ c.toNat ∧ c.toNat ≤ 90
  · have h1 := lowerChar_toNat_upper hc.1 hc.2
    rw [h] at h1
    have h2 : (45 : Nat) = c.toNat + 32 := h1
    omega
  · rw [lowerChar_id hc] at h
    exact h

/-- Lowercasing an alphanumeric-or-hyphen character lands in the slug
alphabet. -/
theorem lowerChar_slug {c : Char} (h : isAlnumAscii c = true ∨ c = '-') :
    isSlugChar (lowerChar c) = true := by
  rcases h with h | h
  · unfold isAlnumAscii at h
    rw [decide_eq_true_eq] at h
    unfold isSlugChar
    rw [decide_eq_true_eq]
    rcases h with h | h | h
    · have h1 := lowerChar_toNat_upper h.1 h.2
      left
      omega
    · rw [lowerChar_id (by omega)]
      left
      exact h
    · rw [lowerChar_id (by omega)]
      right
      left
      exact h
  · subst h
    decide

/-- Lowercasing an alphanumeric character never yields a hyphen. -/
theorem lowerChar_ne_hyphen {c : Char} (h : isAlnumAscii c = true) : lowerChar c ≠ '-' := by
  intro e
  have h45 : (lowerChar c).toNat = 45 := by rw [e]; decide
  unfold isAlnumAscii at h
  rw [decide_eq_true_eq] at h
  rcases h with h | h | h
  · have h1 := lowerChar_toNat_upper h.1 h.2
    omega
  · rw [lowerChar_id (by omega)] at h45
    omega
  · rw [lowerChar_id (by omega)] at h45
    omega

/-- Every character emitted by the substitution loop is alphanumeric or a
hyphen. -/
theorem mem_subNonAlnumAux :
    ∀ (b : Bool) (l : List Char) {c : Char}, c ∈ subNonAlnumAux b l →
      isAlnumAscii c = true ∨ c = '-'
  | b, [], c, h => by simp [subNonAlnumAux] at h
  | b, x :: xs, c, h => by
    by_cases hx : isAlnumAscii x
    · rw [show subNonAlnumAux b (x :: xs) = x :: subNonAlnumAux false xs from by
        simp [subNonAlnumAux, hx]] at h
      rcases List.mem_cons.mp h with h1 | h1
      · exact Or.inl (h1 ▸ hx)
      · exact mem_subNonAlnumAux false xs h1
    · cases b with
      | false =>
        rw [show subNonAlnumAux false (x :: xs) = '-' :: subNonAlnumAux true xs from by
          simp [subNonAlnumAux, hx]] at h
        rcases List.mem_cons.mp h with h1 | h1
        · exact Or.inr h1
        · exact mem_subNonAlnumAux true xs h1
      | true =>
        rw [show subNonAlnumAux true (x :: xs) = subNonAlnumAux true xs from by
          simp [subNonAlnumAux, hx]] at h
        exact mem_subNonAlnumAux true xs h

/-- Members of the hyphen-stripped list are members of the original. -/
theorem mem_stripHyphens {c : Char} {l : List Char} (h : c ∈ stripHyphens l) : c ∈ l := by
  unfold stripHyphens at h
  have h1 := mem_rdropWhile h
  exact (List.dropWhile_sublist isHyphen).mem h1

/-- The head of a `dropWhile` result, when present, fails the predicate. -/
theorem head?_dropWhile_false {α} {p : α → Bool} {l : List α} {c : α}
    (h : (l.dropWhile p).head? = some c) : p c = false := by
  cases hu : l.dropWhile p with
  | nil => rw [hu] at h; simp at h
  | cons d u =>
    rw [hu] at h
    simp at h
    subst h
    exact dropWhile_head_false hu

/-- `rdropWhile` keeps the head of the list, when it keeps anything. -/
theorem head?_rdropWhile {α} {p : α → Bool} {l : List α} {c : α}
    (h : (l.rdropWhile p).head? = some c) : l.head? = some c := by
  obtain ⟨t, ht⟩ := List.rdropWhile_prefix p l
  cases hr : l.rdropWhile p with
  | nil => rw [hr] at h; simp at h
  | cons d u =>
    rw [hr] at h ht
    simp at h
    subst h
    rw [← ht]
    simp

/-- The last element of an `rdropWhile` result, when present, fails the
predicate. -/
theorem getLast?_rdropWhile_false {α} {p : α → Bool} {l : List α} {c : α}
    (h : (l.rdropWhile p).getLast? = some c) : p c = false := by
  unfold List.rdropWhile at h
  rw [List.getLast?_reverse] at h
  exact head?_dropWhile_false h

/-- A list head is a member. -/
theorem mem_of_head? {α} {l : List α} {c : α} (h : l.head? = some c) : c ∈ l := by
  cases l with
  | nil => simp at h
  | cons x xs =>
    simp at h
    subst h
    exact List.mem_cons_self x xs

/-- A list last element is a member. -/
theorem mem_of_getLast? {α} {l : List α} {c : α} (h : l.getLast? = some c) : c ∈ l := by
  have h2 : l.reverse.head? = some c := by rw [List.head?_reverse]; exact h
  exact List.mem_reverse.mp (mem_of_head? h2)

/-- Every character of a finished slug is a lowercase letter, a digit or a
hyphen. -/
theorem slugify_mem_slug (nfkd : String → String) (text : String) :
    ∀ c ∈ (_slugify nfkd text).data, isSlugChar c = true := by
  intro c hc
  unfold _slugify at hc
  rcases List.mem_map.mp hc with ⟨d, hd, hdc⟩
  have h1 := mem_stripHyphens hd
  have h2 := mem_subNonAlnumAux false _ h1
  rw [← hdc]
  exact lowerChar_slug h2

/-- A finished slug never starts with a hyphen. -/
theorem slugify_head_ne (nfkd : String → String) (text : String) :
    (_slugify nfkd text).data.head? ≠ some '-' := by
  intro h
  unfold _slugify at h
  rw [List.head?_map] at h
  cases hL : (stripHyphens (subNonAlnum (asciiIgnore (nfkd text)).data)).head? with
  | none => rw [hL] at h; simp at h
  | some d =>
    rw [hL] at h
    simp at h
    have hd : d = '-' := lowerChar_hyphen h
    unfold stripHyphens at hL
    have h2 := head?_rdropWhile hL
    have h3 := head?_dropWhile_false h2
    rw [hd] at h3
    simp [isHyphen] at h3

/-- A finished slug never ends with a hyphen. -/
theorem slugify_last_ne (nfkd : String → String) (text : String) :
    (_slugify nfkd text).data.getLast? ≠ some '-' := by
  intro h
  unfold _slugify at h
  rw [List.getLast?_map] at h
  cases hL : (stripHyphens (subNonAlnum (asciiIgnore (nfkd text)).data)).getLast? with
  | none => rw [hL] at h; simp at h
  | some d =>
    rw [hL] at h
    simp at h
    have hd : d = '-' := lowerChar_hyphen h
    unfold stripHyphens at hL
    have h3 := getLast?_rdropWhile_false hL
    rw [hd] at h3
    simp [isHyphen] at h3

/-- Claim C2: `_slugify` is the pure deterministic composition of NFKD
normalization, non-ASCII removal, replacement of non-alphanumeric runs by a
single hyphen, hyphen stripping and lowercasing; its output contains only
`[a-z0-9-]` with no leading or trailing hyphen, and on
`2021-Joseph R. Biden, Jr.` it yields `2021-joseph-r-biden-jr`.  (NFKD fixes
every ASCII string; only that instance for the example input is assumed.) -/
theorem C2_slugify_shape (nfkd : String → String) (text : String)
    (hfix : nfkd "2021-Joseph R. Biden, Jr." = "2021-Joseph R. Biden, Jr.") :
    (∀ c ∈ (_slugify nfkd text).data, isSlugChar c = true) ∧
    (_slugify nfkd text).data.head? ≠ some '-' ∧
    (_slugify nfkd text).data.getLast? ≠ some '-' ∧
    _slugify nfkd "2021-Joseph R. Biden, Jr." = "2021-joseph-r-biden-jr" := by
  refine ⟨slugify_mem_slug nfkd text, slugify_head_ne nfkd text, slugify_last_ne nfkd text, ?_⟩
  unfold _slugify
  rw [hfix]
  decide

/-- Witness for C2 with the identity normalization on a concrete input. -/
theorem C2_witness :
    (id "2021-Joseph R. Biden, Jr." = "2021-Joseph R. Biden, Jr.") ∧
    ((∀ c ∈ (_slugify id "John  Quincy Adams!").data, isSlugChar c = true) ∧
      (_slugify id "John  Quincy Adams!").data.head? ≠ some '-' ∧
      (_slugify id "John  Quincy Adams!").data.getLast? ≠ some '-' ∧
      _slugify id "2021-Joseph R. Biden, Jr." = "2021-joseph-r-biden-jr") :=
  ⟨rfl, C2_slugify_shape id "John  Quincy Adams!" rfl⟩

/-- A slug character is alphanumeric or a hyphen. -/
theorem slugChar_alnum_or_hyphen {c : Char} (h : isSlugChar c = true) :
    isAlnumAscii c = true ∨ c = '-' := by
  unfold isSlugChar at h
  rw [decide_eq_true_eq] at h
  rcases h with h | h | h
  · left
    unfold isAlnumAscii
    rw [decide_eq_true_eq]
    right
    left
    exact h
  · left
    unfold isAlnumAscii
    rw [decide_eq_true_eq]
    right
    right
    exact h
  · right
    exact h

/-- Slug characters are ASCII. -/
theorem slugChar_lt128 {c : Char} (h : isSlugChar c = true) : c.toNat < 128 := by
  unfold isSlugChar at h
  rw [decide_eq_true_eq] at h
  rcases h with h | h | h
  · omega
  · omega
  · subst h
    decide

/-- Slug characters are never uppercase letters. -/
theorem slugChar_not_upper {c : Char} (h : isSlugChar c = true) :
    ¬(65 ≤ c.toNat ∧ c.toNat ≤ 90) := by
  unfold isSlugChar at h
  rw [decide_eq_true_eq] at h
  rcases h with h | h | h
  · omega
  · omega
  · subst h
    decide

/-- The substitution loop never emits two adjacent hyphens, and with the
in-run flag set it never emits a leading hyphen. -/
theorem chain_subNonAlnumAux :
    ∀ l : List Char,
      (subNonAlnumAux false l).Chain' (fun a b => ¬(a = '-' ∧ b = '-')) ∧
      (subNonAlnumAux true l).Chain' (fun a b => ¬(a = '-' ∧ b = '-')) ∧
      ∀ c, (subNonAlnumAux true l).head? = some c → c ≠ '-'
  | [] => ⟨List.chain'_nil, List.chain'_nil, fun c hc => by simp [subNonAlnumAux] at hc⟩
  | x :: xs => by
    obtain ⟨ihf, iht, ihh⟩ := chain_subNonAlnumAux xs
    by_cases hx : isAlnumAscii x
    · have e : ∀ b, subNonAlnumAux b (x :: xs) = x :: subNonAlnumAux false xs := fun b => by
        simp [subNonAlnumAux, hx]
      have hxh : x ≠ '-' := by
        intro hh
        rw [hh] at hx
        exact absurd hx (by decide)
      have hch : (x :: subNonAlnumAux false xs).Chain' (fun a b => ¬(a = '-' ∧ b = '-')) := by
        rw [List.chain'_cons']
        exact ⟨fun y _ hc => hxh hc.1, ihf⟩
      refine ⟨by rw [e false]; exact hch, by rw [e true]; exact hch, ?_⟩
      intro c hc
      rw [e true, List.head?_cons] at hc
      injection hc with hc
      exact hc ▸ hxh
    · have ef : subNonAlnumAux false (x :: xs) = '-' :: subNonAlnumAux true xs := by
        simp [subNonAlnumAux, hx]
      have et : subNonAlnumAux true (x :: xs) = subNonAlnumAux true xs := by
        simp [subNonAlnumAux, hx]
      refine ⟨?_, by rw [et]; exact iht, ?_⟩
      · rw [ef, List.chain'_cons']
        refine ⟨fun y hy hc => ?_, iht⟩
        exact ihh y (Option.mem_def.mp hy) hc.2
      · intro c hc
        rw [et] at hc
        exact ihh c hc

/-- A finished slug has no two adjacent hyphens. -/
theorem slugify_chain (nfkd : String → String) (text : String) :
    (_slugify nfkd text).data.Chain' (fun a b => ¬(a = '-' ∧ b = '-')) := by
  unfold _slugify
  show ((stripHyphens (subNonAlnum (asciiIgnore (nfkd text)).data)).map lowerChar).Chain' _
  rw [List.chain'_map]
  have h1 := (chain_subNonAlnumAux (asciiIgnore (nfkd text)).data).1
  have h2 : (stripHyphens (subNonAlnum (asciiIgnore (nfkd text)).data)).Chain'
      (fun a b => ¬(a = '-' ∧ b = '-')) := by
    unfold stripHyphens subNonAlnum
    have hsuf : (subNonAlnumAux false (asciiIgnore (nfkd text)).data).dropWhile isHyphen <:+
        subNonAlnumAux false (asciiIgnore (nfkd text)).data :=
      ⟨(subNonAlnumAux false (asciiIgnore (nfkd text)).data).takeWhile isHyphen,
        List.takeWhile_append_dropWhile isHyphen _⟩
    exact List.Chain'.prefix (h1.suffix hsuf) ( List.rdropWhile_prefix isHyphen _)
  exact h2.imp (fun a b hab hc => hab ⟨lowerChar_hyphen hc.1, lowerChar_hyphen hc.2⟩)

/-- On a list of alphanumeric-or-hyphen characters with no two adjacent
hyphens, the substitution loop is the identity (with the in-run flag set,
provided the head is not a hyphen). -/
theorem subNonAlnumAux_id :
    ∀ l : List Char, (∀ c ∈ l, isAlnumAscii c = true ∨ c = '-') →
      l.Chain' (fun a b => ¬(a = '-' ∧ b = '-')) →
      subNonAlnumAux false l = l ∧
      (∀ d, l.head? = some d → d ≠ '-' → subNonAlnumAux true l = l)
  | [], _, _ => ⟨rfl, fun d hd _ => by simp at hd⟩
  | x :: xs, hmem, hchain => by
    have hxs_mem : ∀ c ∈ xs, isAlnumAscii c = true ∨ c = '-' :=
      fun c hc => hmem c (List.mem_cons_of_mem x hc)
    have hchain_xs : xs.Chain' (fun a b => ¬(a = '-' ∧ b = '-')) :=
      (List.chain'_cons'.mp hchain).2
    obtain ⟨ihf, iht⟩ := subNonAlnumAux_id xs hxs_mem hchain_xs
    rcases hmem x (List.mem_cons_self x xs) with hx | hx
    · have e : ∀ b, subNonAlnumAux b (x :: xs) = x :: subNonAlnumAux false xs := fun b => by
        simp [subNonAlnumAux, hx]
      exact ⟨by rw [e false, ihf], fun d _ _ => by rw [e true, ihf]⟩
    · have hxa : isAlnumAscii x = false := by rw [hx]; decide
      have ef : subNonAlnumAux false (x :: xs) = '-' :: subNonAlnumAux true xs := by
        simp [subNonAlnumAux, hxa]
      have htrue : subNonAlnumAux true xs = xs := by
        cases hxs : xs with
        | nil => rfl
        | cons y ys =>
          have hR := (List.chain'_cons'.mp hchain).1 y (by rw [hxs]; rfl)
          have hy : y ≠ '-' := fun e2 => hR ⟨hx, e2⟩
          have h3 := iht y (by rw [hxs]; rfl) hy
          rw [hxs] at h3
          exact h3
      constructor
      · rw [ef, htrue, hx]
      · intro d hd hd'
        rw [List.head?_cons] at hd
        injection hd with hd
        exact absurd (hd ▸ hx) hd'

/-- Stripping hyphens from a list that neither starts nor ends with one is
the identity. -/
theorem stripHyphens_id {l : List Char} (hhead : l.head? ≠ some '-')
    (hlast : l.getLast? ≠ some '-') : stripHyphens l = l := by
  unfold stripHyphens
  have h1 : l.dropWhile isHyphen = l := by
    cases hl : l with
    | nil => rfl
    | cons x xs =>
      have hx : ¬(isHyphen x = true) := by
        unfold isHyphen
        simp only [beq_iff_eq]
        intro e
        exact hhead (by rw [hl, e]; rfl)
      rw [List.dropWhile_cons, if_neg hx]
  rw [h1, List.rdropWhile_eq_self_iff]
  intro hne hcontra
  simp only [isHyphen, beq_iff_eq] at hcontra
  exact hlast (by rw [List.getLast?_eq_getLast l hne, hcontra])

/-- Lowercasing a list with no uppercase letters is the identity. -/
theorem map_lowerChar_id {l : List Char} (h : ∀ c ∈ l, ¬(65 ≤ c.toNat ∧ c.toNat ≤ 90)) :
    l.map lowerChar = l := by
  induction l with
  | nil => rfl
  | cons x xs ih =>
    rw [List.map_cons, lowerChar_id (h x (List.mem_cons_self x xs)),
      ih (fun c hc => h c (List.mem_cons_of_mem x hc))]

/-- Dropping non-ASCII characters from an ASCII string is the identity. -/
theorem asciiIgnore_id {s : String} (h : ∀ c ∈ s.data, c.toNat < 128) :
    asciiIgnore s = s := by
  unfold asciiIgnore
  have h2 : ∀ c ∈ s.data, (fun c : Char => decide (c.toNat < 128)) c = true :=
    fun c hc => decide_eq_true (h c hc)
  rw [List.filter_eq_self.mpr h2]

/-- Claim C9: `_slugify` is idempotent — its output consists only of
lowercase alphanumerics and single hyphens with no leading or trailing
hyphen, all of which every stage of the pipeline fixes.  (NFKD fixes every
ASCII string, the only fact about it that is assumed.) -/
theorem C9_slugify_idempotent (nfkd : String → String)
    (hascii : ∀ t : String, (∀ c ∈ t.data, c.toNat < 128) → nfkd t = t) (s : String) :
    _slugify nfkd (_slugify nfkd s) = _slugify nfkd s := by
  have hmem := slugify_mem_slug nfkd s
  have hhead := slugify_head_ne nfkd s
  have hlast := slugify_last_ne nfkd s
  have hchain := slugify_chain nfkd s
  have hnf : nfkd (_slugify nfkd s) = _slugify nfkd s :=
    hascii _ (fun c hc => slugChar_lt128 (hmem c hc))
  show String.mk ((stripHyphens (subNonAlnum
    (asciiIgnore (nfkd (_slugify nfkd s))).data)).map lowerChar) = _slugify nfkd s
  rw [hnf, asciiIgnore_id (fun c hc => slugChar_lt128 (hmem c hc))]
  have hsub : subNonAlnum (_slugify nfkd s).data = (_slugify nfkd s).data :=
    (subNonAlnumAux_id _ (fun c hc => slugChar_alnum_or_hyphen (hmem c hc)) hchain).1
  rw [show subNonAlnum (_slugify nfkd s).data = (_slugify nfkd s).data from hsub,
    stripHyphens_id hhead hlast,
    map_lowerChar_id (fun c hc => slugChar_not_upper (hmem c hc))]

/-- Witness for C9 with the identity normalization at a concrete input. -/
theorem C9_witness :
    _slugify id (_slugify id "1801-Thomas Jefferson") = _slugify id "1801-Thomas Jefferson" :=
  C9_slugify_idempotent id (fun _ _ => rfl) "1801-Thomas Jefferson"

/-- Counting a token either keeps the key list (key present) or appends the
new key at the end. -/
theorem keys_bumpToken :
    ∀ (acc : List (String × Nat)) (w : String),
      (bumpToken acc w).map Prod.fst =
        if w ∈ acc.map Prod.fst then acc.map Prod.fst else acc.map Prod.fst ++ [w]
  | [], w => by simp [bumpToken]
  | (x, n) :: rest, w => by
    by_cases hxw : x = w
    · subst hxw
      simp [bumpToken]
    · rw [show bumpToken ((x, n) :: rest) w = (x, n) :: bumpToken rest w from by
        simp [bumpToken, hxw]]
      rw [List.map_cons, List.map_cons, keys_bumpToken rest w]
      by_cases hw : w ∈ rest.map Prod.fst
      · rw [if_pos hw, if_pos (List.mem_cons_of_mem _ hw)]
      · rw [if_neg hw, if_neg (by
          intro hmem
          rcases List.mem_cons.mp hmem with h1 | h1
          · exact hxw h1.symm
          · exact hw h1)]
        rfl

/-- Counting a token preserves distinctness of the keys. -/
theorem nodup_keys_bumpToken {acc : List (String × Nat)} (w : String)
    (h : (acc.map Prod.fst).Nodup) : ((bumpToken acc w).map Prod.fst).Nodup := by
  rw [keys_bumpToken]
  by_cases hw : w ∈ acc.map Prod.fst
  · rw [if_pos hw]
    exact h
  · rw [if_neg hw, List.nodup_append]
    refine ⟨h, List.nodup_singleton w, ?_⟩
    intro a ha hb
    rw [List.mem_singleton] at hb
    exact hw (hb ▸ ha)

/-- Folding the counter keeps the keys distinct. -/
theorem nodup_keys_foldl :
    ∀ (ts : List String) (acc : List (String × Nat)),
      (acc.map Prod.fst).Nodup → ((ts.foldl bumpToken acc).map Prod.fst).Nodup
  | [], _, h => h
  | t :: ts, acc, h => by
    rw [List.foldl_cons]
    exact nodup_keys_foldl ts (bumpToken acc t) (nodup_keys_bumpToken t h)

/-- The frequency distribution has one entry per distinct token. -/
theorem nodup_keys_FreqDist (tokens : List String) :
    ((FreqDist tokens).map Prod.fst).Nodup :=
  nodup_keys_foldl tokens [] (by simp)

/-- Inserting a row permutes consing it. -/
theorem insertRow_perm (r : WordMeta) : ∀ l : List WordMeta, List.Perm (insertRow r l) (r :: l)
  | [] => List.Perm.refl _
  | x :: xs => by
    unfold insertRow
    by_cases h : x.frequency < r.frequency
    · rw [if_pos h]
    · rw [if_neg h]
      exact ((insertRow_perm r xs).cons x).trans (List.Perm.swap r x xs)

/-- The insertion-sort fold permutes appending the input to the
accumulator. -/
theorem sortRows_foldl_perm :
    ∀ (rows acc : List WordMeta),
      List.Perm (rows.foldl (fun acc r => insertRow r acc) acc) (rows ++ acc)
  | [], acc => by simp
  | r :: rs, acc => by
    rw [List.foldl_cons]
    have h1 := sortRows_foldl_perm rs (insertRow r acc)
    have h2 : List.Perm (rs ++ insertRow r acc) (rs ++ (r :: acc)) :=
      List.Perm.append_left rs (insertRow_perm r acc)
    exact (h1.trans h2).trans List.perm_middle

/-- The sorted rows are a permutation of the input rows. -/
theorem sortRows_perm (rows : List WordMeta) : List.Perm (sortRows rows) rows := by
  have h := sortRows_foldl_perm rows []
  rw [List.append_nil] at h
  exact h

/-- Inserting into a descending-sorted list keeps it descending-sorted. -/
theorem insertRow_sorted {l : List WordMeta}
    (hl : l.Pairwise (fun a b => b.frequency ≤ a.frequency)) (r : WordMeta) :
    (insertRow r l).Pairwise (fun a b => b.frequency ≤ a.frequency) := by
  induction l with
  | nil => simp [insertRow]
  | cons x xs ih =>
    rw [List.pairwise_cons] at hl
    obtain ⟨hx, hxs⟩ := hl
    unfold insertRow
    by_cases h : x.frequency < r.frequency
    · rw [if_pos h, List.pairwise_cons]
      constructor
      · intro y hy
        rcases List.mem_cons.mp hy with h1 | h1
        · subst h1
          omega
        · have := hx y h1
          omega
      · rw [List.pairwise_cons]
        exact ⟨hx, hxs⟩
    · rw [if_neg h, List.pairwise_cons]
      constructor
      · intro y hy
        have hmem := (insertRow_perm r xs).mem_iff.mp hy
        rcases List.mem_cons.mp hmem with h1 | h1
        · subst h1
          omega
        · exact hx y h1
      · exact ih hxs

/-- The whole insertion sort yields a descending-sorted list. -/
theorem sortRows_foldl_sorted :
    ∀ (rows acc : List WordMeta),
      acc.Pairwise (fun a b => b.frequency ≤ a.frequency) →
      (rows.foldl (fun acc r => insertRow r acc) acc).Pairwise
        (fun a b => b.frequency ≤ a.frequency)
  | [], _, h => h
  | r :: rs, acc, h => by
    rw [List.foldl_cons]
    exact sortRows_foldl_sorted rs (insertRow r acc) (insertRow_sorted h r)

/-- The sorted rows are sorted by frequency descending. -/
theorem sortRows_sorted (rows : List WordMeta) :
    (sortRows rows).Pairwise (fun a b => b.frequency ≤ a.frequency) :=
  sortRows_foldl_sorted rows [] List.Pairwise.nil

/-- Stable insertion: the rows of any fixed frequency, in order, gain the
inserted row at the end exactly when it has that frequency. -/
theorem insertRow_filter (r : WordMeta) (f : Nat) :
    ∀ {l : List WordMeta}, l.Pairwise (fun a b => b.frequency ≤ a.frequency) →
      (insertRow r l).filter (fun x => x.frequency == f) =
        if r.frequency = f
        then l.filter (fun x => x.frequency == f) ++ [r]
        else l.filter (fun x => x.frequency == f) := by
  intro l hl
  induction l with
  | nil =>
    by_cases hr : r.frequency = f
    · simp [insertRow, List.filter_cons, beq_iff_eq, hr]
    · simp [insertRow, List.filter_cons, beq_iff_eq, hr]
  | cons x xs ih =>
    rw [List.pairwise_cons] at hl
    obtain ⟨hx, hxs⟩ := hl
    unfold insertRow
    by_cases h : x.frequency < r.frequency
    · rw [if_pos h, List.filter_cons]
      by_cases hr : r.frequency = f
      · rw [if_pos (by simp [beq_iff_eq, hr]), if_pos hr]
        have hemp : (x :: xs).filter (fun y => y.frequency == f) = [] := by
          rw [List.filter_eq_nil_iff]
          intro a ha
          rcases List.mem_cons.mp ha with h1 | h1
          · subst h1
            simp [beq_iff_eq]
            omega
          · have := hx a h1
            simp [beq_iff_eq]
            omega
        rw [hemp]
        rfl
      · rw [if_neg (by simp [beq_iff_eq, hr]), if_neg hr]
    · rw [if_neg h, List.filter_cons, ih hxs]
      by_cases hr : r.frequency = f
      · by_cases hpx : x.frequency = f
        · simp [List.filter_cons, hr, hpx]
        · simp [List.filter_cons, hr, hpx]
      · by_cases hpx : x.frequency = f
        · simp [List.filter_cons, hr, hpx]
        · simp [List.filter_cons, hr, hpx]

/-- The insertion-sort fold is stable: rows of any fixed frequency keep
their input order after the accumulator's. -/
theorem sortRows_foldl_filter (f : Nat) :
    ∀ (rows acc : List WordMeta),
      acc.Pairwise (fun a b => b.frequency ≤ a.frequency) →
      (rows.foldl (fun acc r => insertRow r acc) acc).filter (fun x => x.frequency == f) =
        acc.filter (fun x => x.frequency == f) ++ rows.filter (fun x => x.frequency == f)
  | [], acc, _ => by simp
  | r :: rs, acc, h => by
    rw [List.foldl_cons,
      sortRows_foldl_filter f rs (insertRow r acc) (insertRow_sorted h r),
      insertRow_filter r f h]
    by_cases hr : r.frequency = f
    · rw [if_pos hr, List.filter_cons, if_pos (by simp [beq_iff_eq, hr]), List.append_assoc]
      rfl
    · rw [if_neg hr, List.filter_cons, if_neg (by simp [beq_iff_eq, hr])]

/-- The sort is stable: for every frequency, the rows of that frequency
appear in the sorted output in their input order. -/
theorem sortRows_filter (rows : List WordMeta) (f : Nat) :
    (sortRows rows).filter (fun x => x.frequency == f) =
      rows.filter (fun x => x.frequency == f) := by
  have h := sortRows_foldl_filter f rows [] List.Pairwise.nil
  simpa using h

/-- The word column of the metadata rows is the key list of the frequency
distribution. -/
theorem metadataRows_words (tokens : List String) :
    (metadataRows tokens).map (fun r => r.word) = (FreqDist tokens).map Prod.fst := by
  unfold metadataRows
  rw [List.map_map]
  apply List.map_congr_left
  intro a _
  cases a
  rfl

/-- The metadata rows carry one row per distinct token. -/
theorem metadataRows_words_nodup (tokens : List String) :
    ((metadataRows tokens).map (fun r => r.word)).Nodup := by
  rw [metadataRows_words]
  exact nodup_keys_FreqDist tokens

/-- Claim C6: the report writer serializes the classified rows as the header
`word,frequency,has_special_chars,has_nums,has_contraction` followed by
exactly one comma-delimited row per distinct token, rows sorted by frequency
descending with a stable sort in which equal-frequency rows keep the
aggregator's enumeration order. -/
theorem C6_report_writer (tokens : List String) :
    metadata_csv (metadataRows tokens) =
      "word,frequency,has_special_chars,has_nums,has_contraction" ::
        (sortRows (metadataRows tokens)).map rowToCsv ∧
    (metadata_csv (metadataRows tokens)).length = (metadataRows tokens).length + 1 ∧
    List.Perm (sortRows (metadataRows tokens)) (metadataRows tokens) ∧
    (sortRows (metadataRows tokens)).Pairwise (fun a b => b.frequency ≤ a.frequency) ∧
    (∀ f, (sortRows (metadataRows tokens)).filter (fun r => r.frequency == f) =
      (metadataRows tokens).filter (fun r => r.frequency == f)) ∧
    ((metadataRows tokens).map (fun r => r.word)).Nodup := by
  refine ⟨rfl, ?_, sortRows_perm _, sortRows_sorted _, fun f => sortRows_filter _ f,
    metadataRows_words_nodup tokens⟩
  unfold metadata_csv
  rw [List.length_cons, List.length_map, (sortRows_perm _).length_eq]

end USInaugural
